import Mathlib

/-!
Verification of the jmap-jam request-batching core.

This file gives a shallow embedding of the request-batching and
result-reference resolution engine of the jmap-jam library:

* `createInvocationsFromDrafts` embeds
  `InvocationDraft.createInvocationsFromDrafts` (request-drafts.ts);
  argument objects live in an explicit store so that JavaScript object
  identity, fresh allocation and absence of mutation are visible facts.
* `getCapabilitiesForMethodCalls` embeds the capability resolver
  (capabilities.ts).
* `getResultsForMethodCalls`, `isErrorInvocation`, `getErrorFromInvocation`
  embed the response demultiplexer (helpers.ts).
* `expandURITemplate` embeds the URI template expander (helpers.ts).
* `buildSingleRequestBody`, `requestSingleOutcome`, `requestManyThrowOutcome`,
  `requestManyReturnOutcome` embed the pure request-building and
  response-processing parts of `JamClient.request` / `JamClient.requestMany`
  (client.ts; the returning mode is the `errorStrategy: "return"` branch).

JavaScript collection semantics are modelled explicitly: `Map.get`/`Map.set`
as first-match association-list lookup and update-or-append, `Set.add` as
append-if-absent, and `Object.fromEntries` as a left fold of
update-or-append (later duplicate keys overwrite earlier values in place).
-/

namespace JmapJam

/-- JSON-like runtime values. `undef` models the JavaScript `undefined`
value (distinct from JSON `null`), which arises when a `Map.get` miss is
stored into an object property. Nested values are treated structurally;
only top-level argument objects have identity (see `Store`). -/
inductive Value where
  | undef : Value
  | null : Value
  | bool : Bool → Value
  | num : Int → Value
  | str : String → Value
  | arr : List Value → Value
  | obj : List (String × Value) → Value

/-- JavaScript `Map.prototype.get` / association lookup: first matching key. -/
def jsMapGet [DecidableEq κ] : List (κ × α) → κ → Option α
  | [], _ => none
  | (k, v) :: rest, key => if k = key then some v else jsMapGet rest key

/-- JavaScript `Map.prototype.set`: update the first binding of the key in
place, or append a new binding at the end. -/
def jsMapSet [DecidableEq κ] : List (κ × α) → κ → α → List (κ × α)
  | [], key, value => [(key, value)]
  | (k, v) :: rest, key, value =>
    if k = key then (key, value) :: rest else (k, v) :: jsMapSet rest key value

/-- JavaScript `Set.prototype.add`: append if not already a member. -/
def jsSetAdd [DecidableEq α] (l : List α) (x : α) : List α :=
  if x ∈ l then l else l ++ [x]

/-- JavaScript `Object.fromEntries`: entries are inserted left to right with
update-or-append property-definition semantics. -/
def fromEntries [DecidableEq κ] (l : List (κ × α)) : List (κ × α) :=
  l.foldl (fun acc p => jsMapSet acc p.1 p.2) []

/-- A draft invocation, i.e. the `#invocation` tuple `[method, inputArgs]`
held by an `InvocationDraft`. `iid` is the JavaScript object identity of the
tuple (the key used by the compiler's `invocationToId` map); `argsAddr` is
the store address of the arguments object. -/
structure Inv where
  iid : Nat
  method : String
  argsAddr : Nat
deriving DecidableEq

/-- A property value inside a draft arguments object: either a plain value
or a result-reference placeholder produced by `InvocationDraft.$ref`,
holding the source invocation tuple and the result path. -/
inductive ArgValue where
  | plain : Value → ArgValue
  | ref : Inv → String → ArgValue

/-- The entry list of a JavaScript arguments object. -/
abbrev ArgsObj := List (String × ArgValue)

/-- A heap of argument objects: addresses paired with contents, plus the
next fresh address. Lookup is first-match; allocation appends. -/
structure Store where
  mem : List (Nat × ArgsObj)
  next : Nat

/-- Read the object at an address. -/
def Store.get (st : Store) (a : Nat) : Option ArgsObj :=
  jsMapGet st.mem a

/-- Well-formedness: every allocated address is below the fresh counter. -/
def Store.wf (st : Store) : Prop :=
  ∀ p ∈ st.mem, p.1 < st.next

/-- `true` iff the entry's value is not a result-reference placeholder. -/
def isPlainEntry : String × ArgValue → Bool
  | (_, ArgValue.plain _) => true
  | (_, ArgValue.ref _ _) => false

/-- One step of the argument-rewriting callback inside
`createInvocationsFromDrafts`: a placeholder `(key, $ref)` becomes
`("#" ++ key, {name, resultOf, path})` where `resultOf` is the result of
looking the source invocation up in the `invocationToId` table (the
JavaScript non-null assertion `!` has no runtime effect, so a miss stores
`undefined`); a plain property passes through unchanged. -/
def resolveArg (table : List (Nat × String)) : String × ArgValue → String × ArgValue
  | (key, ArgValue.plain v) => (key, ArgValue.plain v)
  | (key, ArgValue.ref source path) =>
    ("#" ++ key,
      ArgValue.plain (Value.obj
        [("name", Value.str source.method),
         ("resultOf",
           match jsMapGet table source.iid with
           | some id => Value.str id
           | none => Value.undef),
         ("path", Value.str path)]))

/-- A wire method call `[method, args, id]`; the rewritten arguments object
is freshly allocated, so it is identified by its store address. -/
structure WireInv where
  method : String
  argsAddr : Nat
  id : String
deriving DecidableEq

/-- The body of `createInvocationsFromDrafts`: iterate the draft entries in
order; for each, record the invocation tuple in `invocationToId`, add the
method name, rewrite the arguments via `resolveArg` under the table built so
far, allocate the rewritten object, and emit the wire triple. Returns
`none` only when a draft's arguments address is dangling, which cannot
happen for states built from real drafts. -/
def compileLoop :
    List (String × Inv) → List (Nat × String) → List String → Store →
      Option (List WireInv × List String × Store)
  | [], _, names, st => some ([], names, st)
  | (id, draft) :: rest, table, names, st =>
    let table' := jsMapSet table draft.iid id
    let names' := jsSetAdd names draft.method
    match st.get draft.argsAddr with
    | none => none
    | some inputArgs =>
      let args := fromEntries (inputArgs.map (resolveArg table'))
      let addr := st.next
      let st' : Store := ⟨st.mem ++ [(addr, args)], st.next + 1⟩
      match compileLoop rest table' names' st' with
      | none => none
      | some (calls, finalNames, finalSt) =>
        some (⟨draft.method, addr, id⟩ :: calls, finalNames, finalSt)

/-- `InvocationDraft.createInvocationsFromDrafts`: compile a mapping of
caller ids to drafts into wire method calls plus the set of method names. -/
def createInvocationsFromDrafts (drafts : List (String × Inv)) (st : Store) :
    Option (List WireInv × List String × Store) :=
  compileLoop drafts [] [] st

/-- The `invocationToId` table after processing a list of draft entries,
starting from table `t`. -/
def stepTable (t : List (Nat × String)) (drafts : List (String × Inv)) :
    List (Nat × String) :=
  drafts.foldl (fun acc p => jsMapSet acc p.2.iid p.1) t

/-- The `knownCapabilities` constant of capabilities.ts: entities paired
with their JMAP capability identifiers. -/
def knownCapabilities : List (String × String) :=
  [("Core", "urn:ietf:params:jmap:core"),
   ("Mailbox", "urn:ietf:params:jmap:mail"),
   ("Thread", "urn:ietf:params:jmap:mail"),
   ("Email", "urn:ietf:params:jmap:mail"),
   ("SearchSnippet", "urn:ietf:params:jmap:mail"),
   ("Identity", "urn:ietf:params:jmap:submission"),
   ("EmailSubmission", "urn:ietf:params:jmap:submission"),
   ("VacationResponse", "urn:ietf:params:jmap:vacationresponse")]

/-- The `knownCapabilities.Core` field access used for core injection. -/
def knownCapabilitiesCore : String := "urn:ietf:params:jmap:core"

/-- A character matched by the regex class `\w` (ASCII word character). -/
def isWordChar (c : Char) : Bool :=
  c.isAlpha || c.isDigit || c = '_'

/-- `entityMatcher.exec(method)?.[1]`: the regex `^(\w+)\/` matches iff the
string starts with a nonempty run of word characters followed by `/`; the
first capture group is that run. -/
def execEntityMatcher (method : String) : Option String :=
  let entityChars := method.toList.takeWhile isWordChar
  if entityChars.isEmpty then none
  else
    match method.toList.drop entityChars.length with
    | '/' :: _ => some (String.mk entityChars)
    | _ => none

/-- The capability contributed by one method name: extract the entity, then
look it up in the available-capabilities map; `none` when either step
fails. -/
def entityCapability (availableCapabilities : List (String × String))
    (method : String) : Option String :=
  match execEntityMatcher method with
  | some entity => jsMapGet availableCapabilities entity
  | none => none

/-- The loop body of `getCapabilitiesForMethodCalls`: add the method's
capability to the set when the entity is matched and mapped, else leave the
set unchanged. -/
def capsLoopStep (availableCapabilities : List (String × String))
    (capabilities : List String) (method : String) : List String :=
  match entityCapability availableCapabilities method with
  | some capability => jsSetAdd capabilities capability
  | none => capabilities

/-- `getCapabilitiesForMethodCalls` (capabilities.ts): accumulate the
capabilities of the method names, then add the core capability whenever the
accumulated set is non-empty. -/
def getCapabilitiesForMethodCalls (methodNames : List String)
    (availableCapabilities : List (String × String)) : List String :=
  let capabilities := methodNames.foldl (capsLoopStep availableCapabilities) []
  if 0 < capabilities.length then jsSetAdd capabilities knownCapabilitiesCore
  else capabilities

/-- `List.isPrefixOf`-based model of JavaScript `String.prototype.includes`
on character lists. -/
def listIncludes (pat : List Char) : List Char → Bool
  | [] => pat.isEmpty
  | c :: rest => pat.isPrefixOf (c :: rest) || listIncludes pat rest

/-- JavaScript `String.prototype.includes`. -/
def jsIncludes (s pat : String) : Bool :=
  listIncludes pat.toList s.toList

/-- Fuel-based replacement of every non-overlapping occurrence of `pat`
(leftmost first) by `rep`; the fuel is an upper bound on the characters
consumed, each step consuming at least one. -/
def replaceAllAux (pat rep : List Char) : Nat → List Char → List Char
  | 0, s => s
  | _ + 1, [] => []
  | fuel + 1, c :: rest =>
    if pat ≠ [] ∧ pat.isPrefixOf (c :: rest) then
      rep ++ replaceAllAux pat rep fuel ((c :: rest).drop pat.length)
    else c :: replaceAllAux pat rep fuel rest

/-- JavaScript `String.prototype.replaceAll` for plain string patterns. -/
def jsReplaceAll (s pat rep : String) : String :=
  String.mk (replaceAllAux pat.toList rep.toList s.toList.length s.toList)

/-- The loop of `expandURITemplate` (helpers.ts): for each supplied
parameter in order, fail when the partially-expanded string does not contain
`{key}` (the error message names the original template and the key), else
replace every occurrence of `{key}` by the value. The final `new URL(...)`
call of the source is host-library URL parsing and is not modelled; the
expanded string itself is returned. -/
def expandTemplateLoop (template : String) :
    String → List (String × String) → Except String String
  | expanded, [] => Except.ok expanded
  | expanded, (key, value) :: rest =>
    let parameter := "\x7b" ++ key ++ "\x7d"
    if jsIncludes expanded parameter then
      expandTemplateLoop template (jsReplaceAll expanded parameter value) rest
    else
      Except.error
        ("Template \"" ++ template ++ "\" is missing parameter: " ++ key)

/-- `expandURITemplate` (helpers.ts). -/
def expandURITemplate (template : String) (params : List (String × String)) :
    Except String String :=
  expandTemplateLoop template template params

/-- A response invocation triple `[name, data, id]`. -/
structure RespInv where
  name : String
  data : Value
  id : String

/-- `isErrorInvocation` (helpers.ts): `input[0] === "error"`. -/
def isErrorInvocation (input : RespInv) : Bool :=
  input.name = "error"

/-- `getErrorFromInvocation` (helpers.ts). -/
def getErrorFromInvocation (invocation : RespInv) : Option Value :=
  if isErrorInvocation invocation then some invocation.data else none

/-- `getResultsForMethodCalls` (helpers.ts): map each response invocation
to an `[id, value]` entry — the raw data when `returnErrors` is false,
otherwise a `{data, error}` object classified by the `"error"` sentinel —
and assemble the entries with `Object.fromEntries`. -/
def getResultsForMethodCalls (methodCallResponses : List RespInv)
    (returnErrors : Bool) : List (String × Value) :=
  fromEntries
    (methodCallResponses.map (fun r =>
      if !returnErrors then (r.id, r.data)
      else if r.name = "error" then
        (r.id, Value.obj [("data", Value.null), ("error", r.data)])
      else
        (r.id, Value.obj [("data", r.data), ("error", Value.null)])))

/-- The response-processing tail of `JamClient.requestMany` in throwing
mode: collect the error payloads of all `"error"` invocations; throw the
collected array when non-empty, else return the demultiplexed results. -/
def requestManyThrowOutcome (methodResponses : List RespInv) :
    Except (List Value) (List (String × Value)) :=
  let errors := methodResponses.filterMap getErrorFromInvocation
  if 0 < errors.length then Except.error errors
  else Except.ok (getResultsForMethodCalls methodResponses false)

/-- The response-processing tail of `requestMany` with
`errorStrategy: "return"`: always demultiplex with `returnErrors: true`;
there is no throwing path. -/
def requestManyReturnOutcome (methodResponses : List RespInv) :
    List (String × Value) :=
  getResultsForMethodCalls methodResponses true

/-- The response-processing tail of `JamClient.request`: destructure the
first entry of `methodResponses`, throw its payload when it is an `"error"`
invocation, else return its payload. `none` models the runtime failure of
destructuring an empty array (the trust-boundary case). -/
def requestSingleOutcome (methodResponses : List RespInv) :
    Option (Except Value Value) :=
  match methodResponses with
  | [] => none
  | methodResponse :: _ =>
    match getErrorFromInvocation methodResponse with
    | some error => some (Except.error error)
    | none => some (Except.ok methodResponse.data)

/-- The wire request body assembled by `JamClient.request` /
`JamClient.requestMany`. -/
structure JMAPRequestBody where
  usingCaps : List String
  methodCalls : List (String × Value × String)
  createdIds : Option (List (String × String))

/-- The request-building part of `JamClient.request`: the single invocation
is `[method, args, "r1"]`, and `using` is the resolved capabilities followed
by the caller-supplied `using` list. -/
def buildSingleRequestBody (method : String) (args : Value)
    (availableCapabilities : List (String × String))
    (usingExtra : List String)
    (createdIdsInput : Option (List (String × String))) : JMAPRequestBody :=
  { usingCaps :=
      getCapabilitiesForMethodCalls [method] availableCapabilities ++ usingExtra,
    methodCalls := [(method, args, "r1")],
    createdIds := createdIdsInput }

/-- The fluent `api.{Entity}.{operation}(args)` surface of `JamClient.api`:
the proxy joins the two property names with `/` and delegates to
`JamClient.request`. -/
def apiProxyCall (entity operation : String) (args : Value)
    (availableCapabilities : List (String × String))
    (usingExtra : List String)
    (createdIdsInput : Option (List (String × String))) : JMAPRequestBody :=
  buildSingleRequestBody (entity ++ "/" ++ operation) args
    availableCapabilities usingExtra createdIdsInput

/-! ### Concrete fixtures

A two-draft batch in the shape of the spec's reference-rewrite scenario:
draft `exA` has a plain argument object, draft `exB` holds one placeholder
pointing at `exA`. -/

/-- Draft invocation `A = ["Mailbox/get", {accountId: "123"}]`. -/
def exA : Inv := ⟨1, "Mailbox/get", 10⟩

/-- Draft invocation `B = ["Email/get", {foo: A.$ref("/bar")}]`. -/
def exB : Inv := ⟨2, "Email/get", 11⟩

/-- Arguments object of `exA`. -/
def exArgsA : ArgsObj := [("accountId", ArgValue.plain (Value.str "123"))]

/-- Arguments object of `exB`: one placeholder pointing at `exA`. -/
def exArgsB : ArgsObj := [("foo", ArgValue.ref exA "/bar")]

/-- Store holding the two argument objects. -/
def exStore : Store := ⟨[(10, exArgsA), (11, exArgsB)], 12⟩

/-- The batch `{a: A, b: B}` (backward reference). -/
def exDrafts : List (String × Inv) := [("a", exA), ("b", exB)]

/-- The batch `{b: B, a: A}`: `B` references `A`, which appears later in
iteration order (forward reference). -/
def fwdDrafts : List (String × Inv) := [("b", exB), ("a", exA)]

/-- Third draft invocation `C = ["Thread/get", {t: B.$ref("/ids")}]`. -/
def exC : Inv := ⟨3, "Thread/get", 12⟩

/-- Arguments object of `exC`: a placeholder pointing at `exB`. -/
def exArgsC : ArgsObj := [("t", ArgValue.ref exB "/ids")]

/-- Store holding the three argument objects. -/
def exStore3 : Store := ⟨[(10, exArgsA), (11, exArgsB), (12, exArgsC)], 13⟩

/-- The ordered three-draft batch `{x: A, y: B, z: C}`. -/
def exDrafts3 : List (String × Inv) := [("x", exA), ("y", exB), ("z", exC)]

/-- Compiled arguments of `exA`: unchanged plain properties. -/
def exCompiledArgsA : ArgsObj := [("accountId", ArgValue.plain (Value.str "123"))]

/-- Compiled arguments of `exB` in the batch `{a: A, b: B}`: the placeholder
key `foo` becomes `#foo` holding the wire result reference to `"a"`. -/
def exCompiledArgsB : ArgsObj :=
  [("#foo", ArgValue.plain (Value.obj
    [("name", Value.str "Mailbox/get"),
     ("resultOf", Value.str "a"),
     ("path", Value.str "/bar")]))]

/-- Wire calls produced by compiling `{a: A, b: B}`. -/
def exCalls : List WireInv :=
  [⟨"Mailbox/get", 12, "a"⟩, ⟨"Email/get", 13, "b"⟩]

/-- Method names produced by compiling `{a: A, b: B}`. -/
def exNames : List String := ["Mailbox/get", "Email/get"]

/-- Store after compiling `{a: A, b: B}`: the draft objects unchanged, plus
the two freshly allocated rewritten argument objects. -/
def exStoreAfter : Store :=
  ⟨[(10, exArgsA), (11, exArgsB), (12, exCompiledArgsA), (13, exCompiledArgsB)], 14⟩

/-- Compiled arguments of `exB` in the forward batch `{b: B, a: A}`: the
source draft is not yet in the lookup table, so `resultOf` is `undefined`. -/
def fwdCompiledArgsB : ArgsObj :=
  [("#foo", ArgValue.plain (Value.obj
    [("name", Value.str "Mailbox/get"),
     ("resultOf", Value.undef),
     ("path", Value.str "/bar")]))]

/-- A simulated response with one success entry and one error entry. -/
def c5ex : List RespInv :=
  [⟨"Mailbox/get", Value.obj [("list", Value.arr [])], "ok1"⟩,
   ⟨"error", Value.obj [("type", Value.str "unknownMethod")], "bad"⟩]

/-- A URI template whose only placeholder receives no parameter. -/
def c7template : String := "https://example.com/\x7baccountId\x7d"

/-! ### Lemmas about the JavaScript collection primitives -/

theorem jsMapGet_jsMapSet_self [DecidableEq κ] (m : List (κ × α)) (k : κ) (v : α) :
    jsMapGet (jsMapSet m k v) k = some v := by
  induction m with
  | nil => simp [jsMapGet, jsMapSet]
  | cons p rest ih =>
    by_cases h : p.1 = k
    · simp [jsMapSet, h, jsMapGet]
    · simp [jsMapSet, jsMapGet, h, ih]

theorem jsMapGet_jsMapSet_ne [DecidableEq κ] (m : List (κ × α)) {k k' : κ} (v : α)
    (h : k' ≠ k) : jsMapGet (jsMapSet m k' v) k = jsMapGet m k := by
  induction m with
  | nil => simp [jsMapGet, jsMapSet, h]
  | cons p rest ih =>
    by_cases hp : p.1 = k'
    · simp [jsMapSet, hp, jsMapGet, h]
    · simp only [jsMapSet, if_neg hp, jsMapGet]
      by_cases hk : p.1 = k
      · simp [hk]
      · simp [hk, ih]

theorem jsMapGet_append [DecidableEq κ] (m1 m2 : List (κ × α)) (k : κ) :
    jsMapGet (m1 ++ m2) k =
      match jsMapGet m1 k with
      | some v => some v
      | none => jsMapGet m2 k := by
  induction m1 with
  | nil => simp [jsMapGet]
  | cons p rest ih =>
    by_cases h : p.1 = k
    · simp [jsMapGet, h]
    · simp [jsMapGet, h, ih]

theorem jsMapGet_append_of_isSome [DecidableEq κ] {m1 : List (κ × α)}
    (m2 : List (κ × α)) {k : κ} {v : α} (h : jsMapGet m1 k = some v) :
    jsMapGet (m1 ++ m2) k = some v := by
  rw [jsMapGet_append, h]

theorem jsMapSet_of_not_mem_keys [DecidableEq κ] {m : List (κ × α)} {k : κ}
    (v : α) (h : ∀ p ∈ m, p.1 ≠ k) : jsMapSet m k v = m ++ [(k, v)] := by
  induction m with
  | nil => simp [jsMapSet]
  | cons p rest ih =>
    have hp : p.1 ≠ k := h p (by simp)
    simp only [jsMapSet, if_neg hp, List.cons_append, List.cons.injEq, true_and]
    exact ih (fun q hq => h q (by simp [hq]))

theorem mem_jsSetAdd [DecidableEq α] (l : List α) (x y : α) :
    y ∈ jsSetAdd l x ↔ y ∈ l ∨ y = x := by
  unfold jsSetAdd
  by_cases h : x ∈ l
  · simp only [if_pos h]
    constructor
    · exact fun hy => Or.inl hy
    · rintro (hy | rfl)
      · exact hy
      · exact h
  · simp [if_neg h]

theorem length_pos_jsSetAdd [DecidableEq α] (l : List α) (x : α) :
    0 < (jsSetAdd l x).length := by
  unfold jsSetAdd
  by_cases h : x ∈ l
  · simpa [if_pos h] using List.length_pos.mpr (List.ne_nil_of_mem h)
  · simp [if_neg h]

theorem fromEntries_go_of_nodup [DecidableEq κ] (l acc : List (κ × α))
    (hnd : (l.map Prod.fst).Nodup)
    (hdisj : ∀ p ∈ acc, ∀ q ∈ l, p.1 ≠ q.1) :
    l.foldl (fun acc p => jsMapSet acc p.1 p.2) acc = acc ++ l := by
  induction l generalizing acc with
  | nil => simp
  | cons p rest ih =>
    have hset : jsMapSet acc p.1 p.2 = acc ++ [p] := by
      have := jsMapSet_of_not_mem_keys (m := acc) p.2
        (fun q hq => hdisj q hq p (by simp))
      simpa using this
    have h1 := hnd
    rw [List.map_cons] at h1
    have hp_not : p.1 ∉ rest.map Prod.fst := (List.nodup_cons.mp h1).1
    have hnd' : (rest.map Prod.fst).Nodup := (List.nodup_cons.mp h1).2
    have hdisj' : ∀ q ∈ acc ++ [p], ∀ r ∈ rest, q.1 ≠ r.1 := by
      intro q hq r hr
      rcases List.mem_append.mp hq with hq | hq
      · exact hdisj q hq r (by simp [hr])
      · have : q = p := by simpa using hq
        subst this
        intro hqr
        exact hp_not (by
          have : r.1 ∈ rest.map Prod.fst := List.mem_map_of_mem Prod.fst hr
          simpa [hqr] using this)
    calc (p :: rest).foldl (fun acc p => jsMapSet acc p.1 p.2) acc
        = rest.foldl (fun acc p => jsMapSet acc p.1 p.2) (acc ++ [p]) := by
          simp [List.foldl_cons, hset]
      _ = (acc ++ [p]) ++ rest := ih (acc ++ [p]) hnd' hdisj'
      _ = acc ++ p :: rest := by simp

theorem fromEntries_of_nodup [DecidableEq κ] (l : List (κ × α))
    (hnd : (l.map Prod.fst).Nodup) : fromEntries l = l := by
  have := fromEntries_go_of_nodup l [] hnd (by simp)
  simpa [fromEntries] using this

/-! ### Lemmas about the invocation-to-id table -/

theorem stepTable_nil (t : List (Nat × String)) : stepTable t [] = t := rfl

theorem stepTable_cons (t : List (Nat × String)) (id : String) (d : Inv)
    (rest : List (String × Inv)) :
    stepTable t ((id, d) :: rest) = stepTable (jsMapSet t d.iid id) rest := rfl

theorem jsMapGet_stepTable_of_not_mem (t : List (Nat × String))
    (drafts : List (String × Inv)) {k : Nat}
    (h : ∀ p ∈ drafts, p.2.iid ≠ k) :
    jsMapGet (stepTable t drafts) k = jsMapGet t k := by
  induction drafts generalizing t with
  | nil => rfl
  | cons p rest ih =>
    rw [show stepTable t (p :: rest) = stepTable (jsMapSet t p.2.iid p.1) rest
      from rfl]
    rw [ih (jsMapSet t p.2.iid p.1) (fun q hq => h q (by simp [hq]))]
    exact jsMapGet_jsMapSet_ne t p.1 (h p (by simp))

theorem jsMapGet_stepTable_get (t : List (Nat × String))
    (drafts : List (String × Inv))
    (hnd : (drafts.map (fun p => p.2.iid)).Nodup)
    (i : Nat) (hi : i < drafts.length) :
    jsMapGet (stepTable t drafts) ((drafts.get ⟨i, hi⟩).2.iid) =
      some (drafts.get ⟨i, hi⟩).1 := by
  induction drafts generalizing t i with
  | nil => exact absurd hi (by simp)
  | cons p rest ih =>
    have h1 := hnd
    rw [List.map_cons] at h1
    have hp1 : p.2.iid ∉ rest.map (fun q => q.2.iid) := (List.nodup_cons.mp h1).1
    have hnd' : (rest.map (fun q => q.2.iid)).Nodup := (List.nodup_cons.mp h1).2
    match i with
    | 0 =>
      show jsMapGet (stepTable t (p :: rest)) p.2.iid = some p.1
      rw [stepTable_cons t p.1 p.2]
      have hp_not : ∀ q ∈ rest, q.2.iid ≠ p.2.iid := by
        intro q hq hiq
        exact hp1 (by
          have : q.2.iid ∈ rest.map (fun q => q.2.iid) :=
            List.mem_map_of_mem (fun q => q.2.iid) hq
          simpa [hiq] using this)
      rw [jsMapGet_stepTable_of_not_mem _ rest hp_not]
      exact jsMapGet_jsMapSet_self t p.2.iid p.1
    | i + 1 =>
      have hi' : i < rest.length := by simpa using hi
      show jsMapGet (stepTable t (p :: rest)) ((rest.get ⟨i, hi'⟩).2.iid) =
        some (rest.get ⟨i, hi'⟩).1
      rw [stepTable_cons t p.1 p.2]
      exact ih (jsMapSet t p.2.iid p.1) hnd' i hi'

/-! ### Structural lemmas about the batch compiler -/

theorem compileLoop_cons (id : String) (draft : Inv)
    (rest : List (String × Inv)) (t : List (Nat × String))
    (names : List String) (st : Store) :
    compileLoop ((id, draft) :: rest) t names st =
      match st.get draft.argsAddr with
      | none => none
      | some inputArgs =>
        match compileLoop rest (jsMapSet t draft.iid id)
          (jsSetAdd names draft.method)
          ⟨st.mem ++ [(st.next,
            fromEntries (inputArgs.map (resolveArg (jsMapSet t draft.iid id))))],
           st.next + 1⟩ with
        | none => none
        | some (calls, finalNames, finalSt) =>
          some (⟨draft.method, st.next, id⟩ :: calls, finalNames, finalSt) := rfl

theorem compileLoop_extends (drafts : List (String × Inv))
    (t : List (Nat × String)) (names : List String) (st : Store)
    (calls : List WireInv) (fn : List String) (st' : Store)
    (hcomp : compileLoop drafts t names st = some (calls, fn, st')) :
    (∃ nm, st'.mem = st.mem ++ nm) ∧ st'.next = st.next + drafts.length ∧
      ∀ c ∈ calls, st.next ≤ c.argsAddr ∧ c.argsAddr < st'.next := by
  induction drafts generalizing t names st calls with
  | nil =>
    simp only [compileLoop, Option.some.injEq, Prod.mk.injEq] at hcomp
    obtain ⟨h1, _, h3⟩ := hcomp
    subst h1
    subst h3
    exact ⟨⟨[], by simp⟩, by simp, by simp⟩
  | cons p rest ih =>
    obtain ⟨id, draft⟩ := p
    rw [compileLoop_cons] at hcomp
    split at hcomp
    · exact absurd hcomp (by simp)
    · rename_i inputArgs hget
      split at hcomp
      · exact absurd hcomp (by simp)
      · rename_i calls1 fn1 st1 hrec
        simp only [Option.some.injEq, Prod.mk.injEq] at hcomp
        obtain ⟨hcalls, hfn, hst⟩ := hcomp
        subst hcalls
        subst hfn
        subst hst
        obtain ⟨⟨nm, hnm⟩, hnext, hbound⟩ := ih _ _ _ _ hrec
        refine ⟨⟨(st.next,
          fromEntries (inputArgs.map (resolveArg (jsMapSet t draft.iid id)))) :: nm,
          by simpa using hnm⟩, by simp only [hnext]; simp; omega, ?_⟩
        intro c hc
        rcases List.mem_cons.mp hc with hc | hc
        · subst hc
          refine ⟨Nat.le_refl _, ?_⟩
          simp only [hnext]
          omega
        · have := hbound c hc
          simp only at this
          omega

theorem compileLoop_get_preserved (drafts : List (String × Inv))
    (t : List (Nat × String)) (names : List String) (st : Store)
    (calls : List WireInv) (fn : List String) (st' : Store)
    (hcomp : compileLoop drafts t names st = some (calls, fn, st'))
    {a : Nat} {v : ArgsObj} (hget : st.get a = some v) :
    st'.get a = some v := by
  obtain ⟨⟨nm, hnm⟩, -, -⟩ :=
    compileLoop_extends drafts t names st calls fn st' hcomp
  unfold Store.get at hget ⊢
  rw [hnm]
  exact jsMapGet_append_of_isSome nm hget

theorem compileLoop_ids (drafts : List (String × Inv))
    (t : List (Nat × String)) (names : List String) (st : Store)
    (calls : List WireInv) (fn : List String) (st' : Store)
    (hcomp : compileLoop drafts t names st = some (calls, fn, st')) :
    calls.map WireInv.id = drafts.map Prod.fst := by
  induction drafts generalizing t names st calls with
  | nil =>
    simp only [compileLoop, Option.some.injEq, Prod.mk.injEq] at hcomp
    obtain ⟨h1, -, -⟩ := hcomp
    subst h1
    simp
  | cons p rest ih =>
    obtain ⟨id, draft⟩ := p
    rw [compileLoop_cons] at hcomp
    split at hcomp
    · exact absurd hcomp (by simp)
    · rename_i inputArgs hget
      split at hcomp
      · exact absurd hcomp (by simp)
      · rename_i calls1 fn1 st1 hrec
        simp only [Option.some.injEq, Prod.mk.injEq] at hcomp
        obtain ⟨hcalls, hfn, hst⟩ := hcomp
        subst hcalls
        subst hfn
        subst hst
        simpa using ih _ _ _ _ hrec

theorem jsMapGet_eq_none [DecidableEq κ] {m : List (κ × α)} {k : κ}
    (h : ∀ p ∈ m, p.1 ≠ k) : jsMapGet m k = none := by
  induction m with
  | nil => rfl
  | cons p rest ih =>
    have hp : p.1 ≠ k := h p (by simp)
    simp only [jsMapGet, if_neg hp]
    exact ih (fun q hq => h q (by simp [hq]))

/-- Per-index characterization of the compiler: the `j`-th emitted call
carries the `j`-th draft's method and caller id and a fresh address
`st.next + j`, and the object allocated there is the draft's arguments
rewritten under the `invocationToId` table holding exactly the first
`j + 1` draft entries. -/
theorem compileLoop_get_spec (drafts : List (String × Inv))
    (t : List (Nat × String)) (names : List String) (st : Store)
    (calls : List WireInv) (fn : List String) (st' : Store)
    (hwf : st.wf)
    (hcomp : compileLoop drafts t names st = some (calls, fn, st'))
    (j : Nat) (hj : j < drafts.length) :
    ∃ hj2 : j < calls.length,
      calls.get ⟨j, hj2⟩ =
        ⟨(drafts.get ⟨j, hj⟩).2.method, st.next + j, (drafts.get ⟨j, hj⟩).1⟩ ∧
      ∀ args, st.get ((drafts.get ⟨j, hj⟩).2.argsAddr) = some args →
        st'.get (st.next + j) =
          some (fromEntries (args.map (resolveArg
            (stepTable t (drafts.take (j + 1)))))) := by
  induction drafts generalizing t names st calls j with
  | nil => exact absurd hj (by simp)
  | cons p rest ih =>
    obtain ⟨id, draft⟩ := p
    rw [compileLoop_cons] at hcomp
    split at hcomp
    · exact absurd hcomp (by simp)
    · rename_i inputArgs hget
      split at hcomp
      · exact absurd hcomp (by simp)
      · rename_i calls1 fn1 st1 hrec
        simp only [Option.some.injEq, Prod.mk.injEq] at hcomp
        obtain ⟨hcalls, hfn, hst⟩ := hcomp
        subst hcalls
        subst hfn
        subst hst
        match j with
        | 0 =>
          refine ⟨by simp, rfl, ?_⟩
          intro args hargs
          have hargs2 : st.get draft.argsAddr = some args := hargs
          rw [hget] at hargs2
          obtain rfl := Option.some.inj hargs2
          show st1.get st.next =
            some (fromEntries (inputArgs.map (resolveArg (jsMapSet t draft.iid id))))
          have hmemnone : jsMapGet st.mem st.next = none :=
            jsMapGet_eq_none (fun q hq => Nat.ne_of_lt (hwf q hq))
          have hget1 : Store.get
              ⟨st.mem ++ [(st.next,
                fromEntries (inputArgs.map (resolveArg (jsMapSet t draft.iid id))))],
               st.next + 1⟩ st.next =
              some (fromEntries (inputArgs.map (resolveArg (jsMapSet t draft.iid id)))) := by
            unfold Store.get
            rw [jsMapGet_append, hmemnone]
            simp [jsMapGet]
          have := compileLoop_get_preserved rest (jsMapSet t draft.iid id)
            (jsSetAdd names draft.method) _ calls1 _ _ hrec hget1
          simpa using this
        | j' + 1 =>
          have hj' : j' < rest.length := by simpa using hj
          have hwf1 : Store.wf
              ⟨st.mem ++ [(st.next,
                fromEntries (inputArgs.map (resolveArg (jsMapSet t draft.iid id))))],
               st.next + 1⟩ := by
            intro q hq
            rcases List.mem_append.mp hq with hq | hq
            · exact Nat.lt_succ_of_lt (hwf q hq)
            · have : q = (st.next,
                fromEntries (inputArgs.map (resolveArg (jsMapSet t draft.iid id)))) := by
                simpa using hq
              subst this
              exact Nat.lt_succ_self _
          obtain ⟨hj2, hcall, hobj⟩ := ih (jsMapSet t draft.iid id)
            (jsSetAdd names draft.method) _ calls1 hwf1 hrec j' hj'
          refine ⟨by simpa using Nat.succ_lt_succ hj2, ?_, ?_⟩
          · have haddr : st.next + (j' + 1) = st.next + 1 + j' := by omega
            rw [List.get_cons_succ]
            rw [hcall]
            simp only [List.get_cons_succ, haddr]
          · intro args hargs
            have hargs1 : Store.get
                ⟨st.mem ++ [(st.next,
                  fromEntries (inputArgs.map (resolveArg (jsMapSet t draft.iid id))))],
                 st.next + 1⟩ ((rest.get ⟨j', hj'⟩).2.argsAddr) = some args := by
              unfold Store.get at hargs ⊢
              exact jsMapGet_append_of_isSome _ (by simpa using hargs)
            have := hobj args (by simpa using hargs1)
            have haddr : st.next + (j' + 1) = st.next + 1 + j' := by omega
            rw [haddr]
            have htake : ((id, draft) :: rest).take (j' + 1 + 1) =
                (id, draft) :: rest.take (j' + 1) := rfl
            rw [htake, stepTable_cons]
            simpa using this

/-! ### Lemmas about the capability resolver -/

theorem mem_capsLoop (avail : List (String × String)) (ms : List String)
    (acc : List String) (c : String) :
    c ∈ ms.foldl (capsLoopStep avail) acc ↔
      c ∈ acc ∨ ∃ m ∈ ms, entityCapability avail m = some c := by
  induction ms generalizing acc with
  | nil => simp
  | cons m rest ih =>
    rw [List.foldl_cons, ih]
    show c ∈ capsLoopStep avail acc m ∨ _ ↔ _
    unfold capsLoopStep
    cases hm : entityCapability avail m with
    | none =>
      simp only [List.mem_cons]
      constructor
      · rintro (hc | ⟨m', hm', hc⟩)
        · exact Or.inl hc
        · exact Or.inr ⟨m', Or.inr hm', hc⟩
      · rintro (hc | ⟨m', hm' | hm', hc⟩)
        · exact Or.inl hc
        · subst hm'
          exact absurd (hm.symm.trans hc) (by simp)
        · exact Or.inr ⟨m', hm', hc⟩
    | some cap =>
      rw [mem_jsSetAdd]
      simp only [List.mem_cons]
      constructor
      · rintro ((hc | rfl) | ⟨m', hm', hc⟩)
        · exact Or.inl hc
        · exact Or.inr ⟨m, Or.inl rfl, hm⟩
        · exact Or.inr ⟨m', Or.inr hm', hc⟩
      · rintro (hc | ⟨m', hm' | hm', hc⟩)
        · exact Or.inl (Or.inl hc)
        · subst hm'
          have : cap = c := by
            have := hm.symm.trans hc
            exact Option.some.inj this
          exact Or.inl (Or.inr this.symm)
        · exact Or.inr ⟨m', hm', hc⟩

theorem capsLoop_eq_nil_iff (avail : List (String × String)) (ms : List String) :
    ms.foldl (capsLoopStep avail) [] = [] ↔
      ¬ ∃ m ∈ ms, ∃ d, entityCapability avail m = some d := by
  constructor
  · rintro h ⟨m, hm, d, hd⟩
    have : d ∈ ms.foldl (capsLoopStep avail) [] :=
      (mem_capsLoop avail ms [] d).mpr (Or.inr ⟨m, hm, hd⟩)
    rw [h] at this
    exact absurd this (by simp)
  · intro h
    refine List.eq_nil_iff_forall_not_mem.mpr (fun c hc => ?_)
    rcases (mem_capsLoop avail ms [] c).mp hc with hc | ⟨m, hm, hmc⟩
    · exact absurd hc (by simp)
    · exact h ⟨m, hm, c, hmc⟩

/-! ### Lemmas about URI template expansion -/

theorem expandTemplateLoop_cons (template expanded key value : String)
    (rest : List (String × String)) :
    expandTemplateLoop template expanded ((key, value) :: rest) =
      (if jsIncludes expanded ("\x7b" ++ key ++ "\x7d") then
        expandTemplateLoop template
          (jsReplaceAll expanded ("\x7b" ++ key ++ "\x7d") value) rest
      else
        Except.error
          ("Template \"" ++ template ++ "\" is missing parameter: " ++ key)) := rfl

theorem expandTemplateLoop_error (template : String)
    (ps : List (String × String)) (expanded e : String)
    (h : expandTemplateLoop template expanded ps = Except.error e) :
    ∃ k v, (k, v) ∈ ps ∧
      e = "Template \"" ++ template ++ "\" is missing parameter: " ++ k := by
  induction ps generalizing expanded with
  | nil => exact absurd h (by simp [expandTemplateLoop])
  | cons p rest ih =>
    obtain ⟨key, value⟩ := p
    rw [expandTemplateLoop_cons] at h
    by_cases hincl : jsIncludes expanded ("\x7b" ++ key ++ "\x7d")
    · rw [if_pos hincl] at h
      obtain ⟨k, v, hmem, he⟩ := ih _ h
      exact ⟨k, v, by simp [hmem], he⟩
    · rw [if_neg hincl] at h
      have he := (Except.error.inj h).symm
      exact ⟨key, value, by simp, he⟩

theorem getResults_false_entries (rs : List RespInv) :
    getResultsForMethodCalls rs false =
      fromEntries (rs.map (fun r => (r.id, r.data))) := rfl

theorem getResults_true_entries (rs : List RespInv) :
    getResultsForMethodCalls rs true =
      fromEntries (rs.map (fun r =>
        if r.name = "error" then
          (r.id, Value.obj [("data", Value.null), ("error", r.data)])
        else
          (r.id, Value.obj [("data", r.data), ("error", Value.null)]))) := rfl

/-! ### Claim theorems -/

/-- Claim C1 fails as stated: in the batch `{b: B, a: A}` where `B` holds a
placeholder pointing at `A`, which appears later in iteration order, the
compiled result reference's `resultOf` is `undefined`, not `A`'s caller id
`"a"` — the compiler records each draft-to-id association only when it
reaches that draft, so forward references do not resolve. -/
theorem c1_counterexample :
    createInvocationsFromDrafts fwdDrafts exStore =
      some ([⟨"Email/get", 12, "b"⟩, ⟨"Mailbox/get", 13, "a"⟩],
        ["Email/get", "Mailbox/get"],
        ⟨[(10, exArgsA), (11, exArgsB), (12, fwdCompiledArgsB),
          (13, exCompiledArgsA)], 14⟩) ∧
    fwdCompiledArgsB ≠
      [("#foo", ArgValue.plain (Value.obj
        [("name", Value.str "Mailbox/get"),
         ("resultOf", Value.str "a"),
         ("path", Value.str "/bar")]))] :=
  ⟨rfl, by simp [fwdCompiledArgsB]⟩

/-- Claim C1 (amended): draft-to-callerId associations are recorded one
entry at a time, immediately before that entry's placeholders are resolved.
Hence entry `j` compiles under the table of the first `j + 1` drafts: a
placeholder pointing at a draft at position `i ≤ j` compiles to a result
reference whose `resultOf` is that draft's caller id, while a placeholder
whose source is not among the first `j + 1` drafts (in particular, any
draft appearing strictly later) compiles with `resultOf` `undefined`. -/
theorem c1_amended (drafts : List (String × Inv)) (st : Store)
    (calls : List WireInv) (fn : List String) (st' : Store)
    (hwf : st.wf)
    (hnodup : (drafts.map (fun p => p.2.iid)).Nodup)
    (hcomp : createInvocationsFromDrafts drafts st = some (calls, fn, st'))
    (j : Nat) (hj : j < drafts.length) (args : ArgsObj)
    (hargs : st.get ((drafts.get ⟨j, hj⟩).2.argsAddr) = some args) :
    st'.get (st.next + j) =
      some (fromEntries (args.map (resolveArg
        (stepTable [] (drafts.take (j + 1)))))) ∧
    (∀ i (hi : i < drafts.length), i ≤ j → ∀ key path,
      resolveArg (stepTable [] (drafts.take (j + 1)))
        (key, ArgValue.ref (drafts.get ⟨i, hi⟩).2 path) =
      ("#" ++ key, ArgValue.plain (Value.obj
        [("name", Value.str (drafts.get ⟨i, hi⟩).2.method),
         ("resultOf", Value.str (drafts.get ⟨i, hi⟩).1),
         ("path", Value.str path)]))) ∧
    (∀ src path key,
      src.iid ∉ (drafts.take (j + 1)).map (fun p => p.2.iid) →
      resolveArg (stepTable [] (drafts.take (j + 1)))
        (key, ArgValue.ref src path) =
      ("#" ++ key, ArgValue.plain (Value.obj
        [("name", Value.str src.method),
         ("resultOf", Value.undef),
         ("path", Value.str path)]))) := by
  obtain ⟨hj2, hcall, hobj⟩ :=
    compileLoop_get_spec drafts [] [] st calls fn st' hwf hcomp j hj
  refine ⟨hobj args hargs, ?_, ?_⟩
  · intro i hi hij key path
    have hlen : i < (drafts.take (j + 1)).length := by
      rw [List.length_take]
      omega
    have hgetTake : (drafts.take (j + 1)).get ⟨i, hlen⟩ = drafts.get ⟨i, hi⟩ := by
      simp [List.get_eq_getElem, List.getElem_take]
    have hndTake : ((drafts.take (j + 1)).map (fun p => p.2.iid)).Nodup := by
      rw [List.map_take]
      exact (List.take_sublist _ _).nodup hnodup
    have hlook := jsMapGet_stepTable_get [] (drafts.take (j + 1)) hndTake i hlen
    rw [hgetTake] at hlook
    simp only [List.get_eq_getElem] at hlook
    simp [resolveArg, hlook]
  · intro src path key hmem
    have hnone : jsMapGet (stepTable [] (drafts.take (j + 1))) src.iid = none := by
      rw [jsMapGet_stepTable_of_not_mem]
      · rfl
      · intro p hp hpe
        exact hmem (by rw [← hpe]; exact List.mem_map_of_mem _ hp)
    simp [resolveArg, hnone]

/-- Witness for C1 (amended): in the batch `{a: A, b: B}` the placeholder
of `B` (entry 1) pointing backwards at `A` (entry 0) resolves to caller id
`"a"`. -/
theorem c1_witness :
    resolveArg (stepTable [] (exDrafts.take 2)) ("foo", ArgValue.ref exA "/bar") =
      ("#foo", ArgValue.plain (Value.obj
        [("name", Value.str "Mailbox/get"),
         ("resultOf", Value.str "a"),
         ("path", Value.str "/bar")])) :=
  (c1_amended exDrafts exStore exCalls exNames exStoreAfter
    (by unfold Store.wf; decide) (by decide) rfl 1 (by decide) exArgsB rfl).2.1
    0 (by decide) (by decide) "foo" "/bar"

/-- Claim C3: for every batch with distinct caller ids, compiling and then
demultiplexing a simulated response that echoes each id with a synthetic
success payload yields exactly the declared ids, each paired with its
synthetic payload. -/
theorem c3_correlation_roundtrip (drafts : List (String × Inv)) (st : Store)
    (calls : List WireInv) (fn : List String) (st' : Store)
    (synth : String → Value)
    (hnodup : (drafts.map Prod.fst).Nodup)
    (hcomp : createInvocationsFromDrafts drafts st = some (calls, fn, st')) :
    getResultsForMethodCalls
      (calls.map (fun c => ⟨c.method, synth c.id, c.id⟩)) false =
      drafts.map (fun p => (p.1, synth p.1)) := by
  have hids := compileLoop_ids drafts [] [] st calls fn st' hcomp
  rw [getResults_false_entries, List.map_map]
  show fromEntries (calls.map (fun c => (c.id, synth c.id))) = _
  have h2 : calls.map (fun c => (c.id, synth c.id)) =
      drafts.map (fun p => (p.1, synth p.1)) := by
    have h3 : calls.map (fun c => (c.id, synth c.id)) =
        (calls.map WireInv.id).map (fun i => (i, synth i)) := by
      rw [List.map_map]
      rfl
    rw [h3, hids, List.map_map]
    rfl
  rw [h2]
  apply fromEntries_of_nodup
  have h4 : (drafts.map (fun p => (p.1, synth p.1))).map Prod.fst =
      drafts.map Prod.fst := by
    rw [List.map_map]
    rfl
  rw [h4]
  exact hnodup

/-- Witness for C3 on the batch `{a: A, b: B}` with synthetic payload
`Value.str id`. -/
theorem c3_witness :
    getResultsForMethodCalls
      (exCalls.map (fun c => ⟨c.method, Value.str c.id, c.id⟩)) false =
      exDrafts.map (fun p => (p.1, Value.str p.1)) :=
  c3_correlation_roundtrip exDrafts exStore exCalls exNames exStoreAfter
    Value.str (by decide) rfl

/-- Claim C2: compiling `{a: A, b: B}`, where `A` has no placeholder
arguments and `B` has exactly one argument `foo` holding a placeholder
created from `A` with path `/bar`, emits `B`'s wire invocation with the
plain key `foo` replaced by `#foo` valued
`{name: "Mailbox/get", resultOf: "a", path: "/bar"}`; non-placeholder
properties keep their key and value, and no compiled arguments object
contains a raw placeholder. -/
theorem c2_reference_rewrite :
    createInvocationsFromDrafts exDrafts exStore =
      some (exCalls, exNames, exStoreAfter) ∧
    (exCompiledArgsA.all isPlainEntry && exCompiledArgsB.all isPlainEntry) = true :=
  ⟨rfl, rfl⟩

/-- Claim C6: the compiled wire invocation array preserves the batch
mapping's iteration order — the sequence of caller ids of the emitted
invocations equals the sequence of declared caller ids, regardless of any
reference relationships among the drafts. -/
theorem c6_order_preservation (drafts : List (String × Inv)) (st : Store)
    (calls : List WireInv) (fn : List String) (st' : Store)
    (hcomp : createInvocationsFromDrafts drafts st = some (calls, fn, st')) :
    calls.map WireInv.id = drafts.map Prod.fst :=
  compileLoop_ids drafts [] [] st calls fn st' hcomp

/-- Witness for C6 on the ordered batch `{x: A, y: B, z: C}` in which `B`
references `A` and `C` references `B`. -/
theorem c6_witness :
    ([⟨"Mailbox/get", 13, "x"⟩, ⟨"Email/get", 14, "y"⟩,
      ⟨"Thread/get", 15, "z"⟩] : List WireInv).map WireInv.id =
      exDrafts3.map Prod.fst :=
  c6_order_preservation exDrafts3 exStore3 _ _ _ rfl

/-- Claim C9: compilation does not mutate any draft's arguments object —
every address readable before compilation reads the same object afterwards —
and every emitted invocation's rewritten arguments object is freshly
constructed, at an address distinct from every preexisting object. -/
theorem c9_no_mutation (drafts : List (String × Inv)) (st : Store)
    (calls : List WireInv) (fn : List String) (st' : Store)
    (hwf : st.wf)
    (hcomp : createInvocationsFromDrafts drafts st = some (calls, fn, st')) :
    (∀ a v, st.get a = some v → st'.get a = some v) ∧
    (∀ c ∈ calls, ∀ p ∈ st.mem, p.1 ≠ c.argsAddr) := by
  refine ⟨fun a v hv =>
    compileLoop_get_preserved drafts [] [] st calls fn st' hcomp hv, ?_⟩
  obtain ⟨-, -, hbound⟩ := compileLoop_extends drafts [] [] st calls fn st' hcomp
  intro c hc p hp
  have h1 := (hbound c hc).1
  have h2 := hwf p hp
  omega

/-- Witness for C9: after compiling `{a: A, b: B}`, both draft argument
objects read back unchanged. -/
theorem c9_witness :
    exStoreAfter.get 10 = some exArgsA ∧ exStoreAfter.get 11 = some exArgsB := by
  have h := c9_no_mutation exDrafts exStore exCalls exNames exStoreAfter
    (by unfold Store.wf; decide) rfl
  exact ⟨h.1 10 exArgsA rfl, h.1 11 exArgsB rfl⟩

/-- Claim C4: the resolved capability set consists exactly of the
capabilities mapped from the method names' entities, together with the core
capability whenever at least one method name maps to a capability; when no
method name maps to a capability the resolved set is empty and the core
capability is not added. -/
theorem c4_capability_resolution (methodNames : List String)
    (avail : List (String × String)) :
    (∀ c, c ∈ getCapabilitiesForMethodCalls methodNames avail ↔
      ((∃ m ∈ methodNames, entityCapability avail m = some c) ∨
       (c = knownCapabilitiesCore ∧
        ∃ m ∈ methodNames, ∃ d, entityCapability avail m = some d))) ∧
    (getCapabilitiesForMethodCalls methodNames avail = [] ↔
      ¬ ∃ m ∈ methodNames, ∃ d, entityCapability avail m = some d) := by
  have hdef : getCapabilitiesForMethodCalls methodNames avail =
      (if 0 < (methodNames.foldl (capsLoopStep avail) []).length then
        jsSetAdd (methodNames.foldl (capsLoopStep avail) [])
          knownCapabilitiesCore
      else methodNames.foldl (capsLoopStep avail) []) := rfl
  by_cases hpos : 0 < (methodNames.foldl (capsLoopStep avail) []).length
  · have hne : ∃ m ∈ methodNames, ∃ d, entityCapability avail m = some d := by
      obtain ⟨c0, hc0⟩ := List.exists_mem_of_length_pos hpos
      rcases (mem_capsLoop avail methodNames [] c0).mp hc0 with h | ⟨m, hm, hmc⟩
      · exact absurd h (by simp)
      · exact ⟨m, hm, c0, hmc⟩
    constructor
    · intro c
      rw [hdef, if_pos hpos, mem_jsSetAdd, mem_capsLoop]
      simp only [List.not_mem_nil, false_or]
      constructor
      · rintro (⟨m, hm, hmc⟩ | rfl)
        · exact Or.inl ⟨m, hm, hmc⟩
        · exact Or.inr ⟨rfl, hne⟩
      · rintro (⟨m, hm, hmc⟩ | ⟨rfl, -⟩)
        · exact Or.inl ⟨m, hm, hmc⟩
        · exact Or.inr rfl
    · rw [hdef, if_pos hpos]
      refine iff_of_false (fun hnil => ?_) (fun hno => hno hne)
      have hlp := length_pos_jsSetAdd
        (methodNames.foldl (capsLoopStep avail) []) knownCapabilitiesCore
      rw [hnil] at hlp
      exact absurd hlp (by simp)
  · have hnil : methodNames.foldl (capsLoopStep avail) [] = [] := by
      cases hfold : methodNames.foldl (capsLoopStep avail) [] with
      | nil => rfl
      | cons a l => rw [hfold] at hpos; exact absurd (by simp) hpos
    have hno := (capsLoop_eq_nil_iff avail methodNames).mp hnil
    constructor
    · intro c
      rw [hdef, if_neg hpos, hnil]
      simp only [List.not_mem_nil, false_iff]
      rintro (⟨m, hm, hmc⟩ | ⟨-, hex⟩)
      · exact hno ⟨m, hm, c, hmc⟩
      · exact hno hex
    · rw [hdef, if_neg hpos, hnil]
      exact iff_of_true rfl hno

/-- Claim C5: on a response containing at least one `"error"` invocation,
the throwing-mode batch path raises the collected list of all error
payloads, the single-call path raises the (first) error payload directly,
and the returning-mode demultiplexer returns the full map pairing each
caller id with `{data, error: null}` or `{data: null, error}` without
raising. -/
theorem c5_error_modes (rs : List RespInv)
    (h : ∃ r ∈ rs, r.name = "error") :
    requestManyThrowOutcome rs =
      Except.error (rs.filterMap getErrorFromInvocation) ∧
    rs.filterMap getErrorFromInvocation ≠ [] ∧
    requestManyReturnOutcome rs =
      fromEntries (rs.map (fun r =>
        if r.name = "error" then
          (r.id, Value.obj [("data", Value.null), ("error", r.data)])
        else (r.id, Value.obj [("data", r.data), ("error", Value.null)]))) ∧
    (∀ p i rest, requestSingleOutcome (⟨"error", p, i⟩ :: rest) =
      some (Except.error p)) := by
  obtain ⟨r, hr, hname⟩ := h
  have herr : getErrorFromInvocation r = some r.data := by
    unfold getErrorFromInvocation isErrorInvocation
    rw [hname]
    simp
  have hmem : r.data ∈ rs.filterMap getErrorFromInvocation :=
    List.mem_filterMap.mpr ⟨r, hr, herr⟩
  have hne : rs.filterMap getErrorFromInvocation ≠ [] :=
    List.ne_nil_of_mem hmem
  refine ⟨?_, hne, getResults_true_entries rs, fun p i rest => rfl⟩
  show (if 0 < (rs.filterMap getErrorFromInvocation).length then
      Except.error (rs.filterMap getErrorFromInvocation)
    else Except.ok (getResultsForMethodCalls rs false)) = _
  rw [if_pos (List.length_pos.mpr hne)]

/-- Witness for C5 on a simulated response with one success and one error
entry. -/
theorem c5_witness :
    requestManyThrowOutcome c5ex =
      Except.error [Value.obj [("type", Value.str "unknownMethod")]] ∧
    requestManyReturnOutcome c5ex =
      [("ok1", Value.obj [("data", Value.obj [("list", Value.arr [])]),
         ("error", Value.null)]),
       ("bad", Value.obj [("data", Value.null),
         ("error", Value.obj [("type", Value.str "unknownMethod")])])] ∧
    requestSingleOutcome [⟨"error", Value.str "boom", "r1"⟩] =
      some (Except.error (Value.str "boom")) := by
  have h := c5_error_modes c5ex
    ⟨⟨"error", Value.obj [("type", Value.str "unknownMethod")], "bad"⟩,
      List.mem_cons_of_mem _ (List.mem_cons_self _ _), rfl⟩
  exact ⟨h.1.trans (by rfl), h.2.2.1.trans (by rfl),
    h.2.2.2 (Value.str "boom") "r1" []⟩

/-- Claim C7 fails as stated: a template placeholder with no supplied
parameter does not cause a failure — with an empty parameter map, expansion
of a template that still contains the placeholder `\x7baccountId\x7d`
succeeds and leaves the placeholder in place. The expander only fails for a
supplied parameter whose placeholder is absent. -/
theorem c7_counterexample :
    expandURITemplate c7template [] = Except.ok c7template ∧
    jsIncludes c7template ("\x7b" ++ "accountId" ++ "\x7d") = true :=
  ⟨rfl, rfl⟩

/-- Claim C7 (amended): expansion replaces every occurrence of each
supplied parameter's placeholder with its value, processing parameters in
order, and fails synchronously — naming the original template and the
offending parameter — exactly when a supplied parameter's placeholder is
absent from the partially-expanded template; placeholders with no supplied
parameter are left in place without error. -/
theorem c7_amended (template k v : String) (ps : List (String × String)) :
    (∀ e, expandURITemplate template ps = Except.error e →
      ∃ key value, (key, value) ∈ ps ∧
        e = "Template \"" ++ template ++ "\" is missing parameter: " ++ key) ∧
    expandURITemplate template [] = Except.ok template ∧
    (jsIncludes template ("\x7b" ++ k ++ "\x7d") = true →
      expandURITemplate template [(k, v)] =
        Except.ok (jsReplaceAll template ("\x7b" ++ k ++ "\x7d") v)) := by
  refine ⟨fun e he => expandTemplateLoop_error template ps template e he,
    rfl, ?_⟩
  intro hincl
  unfold expandURITemplate
  rw [expandTemplateLoop_cons, if_pos hincl]
  rfl

/-- Witness for C7 (amended): a failure names the supplied parameter `b`
and the original template; an empty parameter map succeeds; a supplied
parameter whose placeholder occurs is replaced. -/
theorem c7_witness :
    (∃ key value, (key, value) ∈ ([("b", "2")] : List (String × String)) ∧
      "Template \"https://x/\x7ba\x7d\" is missing parameter: b" =
        "Template \"" ++ "https://x/\x7ba\x7d" ++
          "\" is missing parameter: " ++ key) ∧
    expandURITemplate "https://x/\x7ba\x7d" [] =
      Except.ok "https://x/\x7ba\x7d" ∧
    expandURITemplate "https://x/\x7ba\x7d" [("a", "42")] =
      Except.ok (jsReplaceAll "https://x/\x7ba\x7d"
        ("\x7b" ++ "a" ++ "\x7d") "42") := by
  have h := c7_amended "https://x/\x7ba\x7d" "a" "42" [("b", "2")]
  exact ⟨h.1 "Template \"https://x/\x7ba\x7d\" is missing parameter: b" rfl,
    h.2.1, h.2.2 rfl⟩

/-- Claim C8: a method name whose entity has no registered capability
contributes nothing to the resolved capability set — removing it from the
method-name list leaves the result unchanged — and resolution never fails
on it. -/
theorem c8_unknown_entity (pre post : List String) (m : String)
    (avail : List (String × String))
    (h : entityCapability avail m = none) :
    getCapabilitiesForMethodCalls (pre ++ m :: post) avail =
      getCapabilitiesForMethodCalls (pre ++ post) avail := by
  have hfold : (pre ++ m :: post).foldl (capsLoopStep avail)
      ([] : List String) = (pre ++ post).foldl (capsLoopStep avail) [] := by
    rw [List.foldl_append, List.foldl_append, List.foldl_cons]
    have hstep : capsLoopStep avail (pre.foldl (capsLoopStep avail) []) m =
        pre.foldl (capsLoopStep avail) [] := by
      unfold capsLoopStep
      rw [h]
    rw [hstep]
  unfold getCapabilitiesForMethodCalls
  rw [hfold]

/-- Witness for C8: adding a method name with an unregistered entity leaves
the resolved capabilities unchanged. -/
theorem c8_witness :
    getCapabilitiesForMethodCalls ["Mailbox/get", "Unknown/frobnicate"]
      knownCapabilities =
      getCapabilitiesForMethodCalls ["Mailbox/get"] knownCapabilities :=
  c8_unknown_entity ["Mailbox/get"] [] "Unknown/frobnicate"
    knownCapabilities rfl

/-- Claim C10: the single-call request path always assigns the fixed
correlation id `"r1"` to its sole invocation, the fluent
`api.{Entity}.{operation}` surface delegates to the same request builder
with the joined method name, and response processing reads only the first
entry of `methodResponses` (it is invariant under everything after it). -/
theorem c10_single_request (method entity operation : String) (args : Value)
    (avail : List (String × String)) (extra : List String)
    (created : Option (List (String × String)))
    (r : RespInv) (rest rest' : List RespInv) :
    (buildSingleRequestBody method args avail extra created).methodCalls =
      [(method, args, "r1")] ∧
    apiProxyCall entity operation args avail extra created =
      buildSingleRequestBody (entity ++ "/" ++ operation) args avail extra
        created ∧
    requestSingleOutcome (r :: rest) = requestSingleOutcome (r :: rest') :=
  ⟨rfl, rfl, rfl⟩

end JmapJam
